import Mathlib

/-!
Shallow embedding of `src/main.py` (circle-growth simulation) and proofs of
the specification claims about it.

The simulation state engine owns, for `n` placed points:
radii (rationals, modelling the numpy float array), and per-point isolation
counters (naturals; the numpy array only ever holds whole numbers).
Positions are fixed after placement.  Each step grows every active circle,
recomputes pairwise overlaps, and updates the isolation counters.
-/

namespace Holes

/-- Source constant `num_points = 10` (src/main.py line 8). -/
def num_points : ℕ := 10

/-- Source constant `manual_points = 10` (line 9). -/
def manual_points : ℕ := 10

/-- Source constant `expansion_rate = 0.05` (line 10), as the rational 1/20. -/
def expansion_rate : ℚ := 1 / 20

/-- Source constant `steps = 20` (line 11). -/
def steps : ℕ := 20

/-- Source constant `isolation_limit = 4` (line 13). -/
def isolation_limit : ℕ := 4

/-- Configuration of a run: the growth increment and the isolation limit.
In the source these are the module-level constants above; the proofs are
stated for arbitrary values. -/
structure Config where
  expansion_rate : ℚ
  isolation_limit : ℕ

/-- The source's configuration. -/
def defaultConfig : Config := ⟨expansion_rate, isolation_limit⟩

/-- Squared Euclidean distance `((p1 - p2)**2).sum()` from `circles_overlap`
(line 162), before the square root is taken. -/
def sqDist (p1 p2 : ℚ × ℚ) : ℚ :=
  (p1.1 - p2.1) * (p1.1 - p2.1) + (p1.2 - p2.2) * (p1.2 - p2.2)

/-- Overlap test `circles_overlap(p1, p2, r1, r2)` (lines 160-163):
`dist = np.sqrt(((p1 - p2)**2).sum()); return dist <= (r1 + r2)`.
Stated in the decidable square-free form: `√d ≤ s ↔ 0 ≤ s ∧ d ≤ s * s`
for `d ≥ 0`; the theorem `circles_overlap_iff_dist` below proves this form
equivalent to the source's square-root comparison over the reals. -/
def circles_overlap (p1 p2 : ℚ × ℚ) (r1 r2 : ℚ) : Bool :=
  decide (0 ≤ r1 + r2 ∧ sqDist p1 p2 ≤ (r1 + r2) * (r1 + r2))

/-- Per-run mutable state of the engine: the radius array (line 73) and the
isolation counter array (line 137). -/
structure SimState (n : ℕ) where
  radii : Fin n → ℚ
  isolation_counts : Fin n → ℕ

/-- Fresh per-run state: `radii = np.zeros(...)` (line 73) and
`isolation_counts = np.zeros(...)` (lines 137, 169). -/
def initState (n : ℕ) : SimState n := ⟨fun _ => 0, fun _ => 0⟩

/-- Growth phase of a step (lines 185-187):
`active_circles = isolation_counts < isolation_limit;
radii[active_circles] += expansion_rate`. -/
def grow {n : ℕ} (cfg : Config) (s : SimState n) : SimState n :=
  { s with
    radii := fun i =>
      if s.isolation_counts i < cfg.isolation_limit then
        s.radii i + cfg.expansion_rate
      else s.radii i }

/-- The pair test of the bookkeeping pass in `update_connections`
(lines 144-146): the double loop visits exactly the ordered pairs `i < j`
and applies `circles_overlap` to them. -/
def bookConnected {n : ℕ} (pts : Fin n → ℚ × ℚ) (r : Fin n → ℚ)
    (i j : Fin n) : Bool :=
  decide (i < j) && circles_overlap (pts i) (pts j) (r i) (r j)

/-- The pair test of the drawing pass in the main loop (lines 190-192):
the same double loop over ordered pairs `i < j` with `circles_overlap`. -/
def drawConnected {n : ℕ} (pts : Fin n → ℚ × ℚ) (r : Fin n → ℚ)
    (i j : Fin n) : Bool :=
  decide (i < j) && circles_overlap (pts i) (pts j) (r i) (r j)

/-- The symmetric connectivity relation over unordered index pairs that the
loops expose: pair `{i, j}` is connected when the one ordered pair among
`(i, j)` and `(j, i)` that the loop visits passes `circles_overlap`. -/
def pairConnected {n : ℕ} (pts : Fin n → ℚ × ℚ) (r : Fin n → ℚ)
    (i j : Fin n) : Bool :=
  (decide (i < j) && circles_overlap (pts i) (pts j) (r i) (r j)) ||
  (decide (j < i) && circles_overlap (pts j) (pts i) (r j) (r i))

/-- Flag `connected[k]` after the double loop of `update_connections`
(lines 142-149): `k` is marked when some visited pair `(i, j)`, `i < j`,
overlaps and `k` is one of its two endpoints. -/
def touched {n : ℕ} (pts : Fin n → ℚ × ℚ) (r : Fin n → ℚ) (k : Fin n) : Bool :=
  decide (∃ i j : Fin n, bookConnected pts r i j = true ∧ (k = i ∨ k = j))

/-- Counter bookkeeping of `update_connections` (lines 154-156):
`isolation_counts[~connected] += 1; isolation_counts[connected] = 0`.
Radii are not written by this function. -/
def update_connections {n : ℕ} (pts : Fin n → ℚ × ℚ) (s : SimState n) :
    SimState n :=
  { s with
    isolation_counts := fun i =>
      if touched pts s.radii i then 0 else s.isolation_counts i + 1 }

/-- One iteration of the per-step body of the main loop (lines 183-222):
grow the active circles, then run the bookkeeping pass on the post-growth
radii. -/
def simStep {n : ℕ} (cfg : Config) (pts : Fin n → ℚ × ℚ) (s : SimState n) :
    SimState n :=
  update_connections pts (grow cfg s)

/-- Predicted radius drawn during placement and while previewing the cursor
(lines 50 and 95): `predicted_radius = isolation_limit * expansion_rate`.
It takes the previewed position as an argument because the source computes
it per previewed position, but its value does not depend on it. -/
def placementPredicted (cfg : Config) (pos : ℚ × ℚ) : ℚ :=
  (cfg.isolation_limit : ℚ) * cfg.expansion_rate

/-- Predicted final radius of an active point (line 210):
`radii[i] + (isolation_limit - isolation_counts[i]) * expansion_rate`
(numpy float subtraction, hence the casts to ℚ). -/
def predictedFinalRadius {n : ℕ} (cfg : Config) (s : SimState n) (i : Fin n) :
    ℚ :=
  s.radii i +
    ((cfg.isolation_limit : ℚ) - (s.isolation_counts i : ℚ)) *
      cfg.expansion_rate

/-- The prediction part of the drawing pass (lines 197-216) as a query:
it yields the predicted boundary radius for each active point (none for a
frozen point) and hands the simulation state back untouched, as the source's
drawing code never writes `points`, `radii` or `isolation_counts`. -/
def renderPredictions {n : ℕ} (cfg : Config) (s : SimState n) :
    (Fin n → Option ℚ) × SimState n :=
  (fun i =>
    if s.isolation_counts i < cfg.isolation_limit then
      some (predictedFinalRadius cfg s i)
    else none,
   s)

/-- Full per-run state including the persistently stored boolean
`connections` matrix of line 74 (`np.ones((n, n), dtype=bool)`). -/
structure FullState (n : ℕ) where
  radii : Fin n → ℚ
  isolation_counts : Fin n → ℕ
  connections : Fin n → Fin n → Bool

/-- Fresh full state (lines 72-74): zero radii, zero counters, and a
connections matrix of all `True`. -/
def initFull (n : ℕ) : FullState n :=
  ⟨fun _ => 0, fun _ => 0, fun _ _ => true⟩

/-- Growth phase (lines 185-187) on the full state. -/
def growFull {n : ℕ} (cfg : Config) (fs : FullState n) : FullState n :=
  { fs with
    radii := fun i =>
      if fs.isolation_counts i < cfg.isolation_limit then
        fs.radii i + cfg.expansion_rate
      else fs.radii i }

/-- Pass `update_connections` on the full state, including the write
`connections[i, j] = True` of line 147: the entry for a visited overlapping
pair is set to `True`, every other entry keeps its old value. -/
def update_connections_full {n : ℕ} (pts : Fin n → ℚ × ℚ)
    (fs : FullState n) : FullState n :=
  { fs with
    connections := fun i j =>
      if bookConnected pts fs.radii i j then true else fs.connections i j,
    isolation_counts := fun i =>
      if touched pts fs.radii i then 0 else fs.isolation_counts i + 1 }

/-- One step of the main loop on the full state. -/
def fullStep {n : ℕ} (cfg : Config) (pts : Fin n → ℚ × ℚ)
    (fs : FullState n) : FullState n :=
  update_connections_full pts (growFull cfg fs)

/-- Input signals recognised by `on_key_press` (lines 22-30): the space bar,
the `r` key, and anything else. -/
inductive Key where
  | space
  | keyR
  | other

/-- Whole-engine state during a run: the placed points (fixed by the
placement phase), the per-run simulation state, the step index of the
`for step in range(steps)` loop, and the global `paused` and
`restart_requested` flags (lines 16-17). -/
structure EngineState (n : ℕ) where
  points : Fin n → ℚ × ℚ
  sim : SimState n
  stepIdx : ℕ
  paused : Bool
  restart_requested : Bool

/-- Handler `on_key_press` (lines 22-30): space toggles `paused`; `r` sets
`restart_requested` and clears `paused`; other keys do nothing. -/
def on_key_press {n : ℕ} (key : Key) (g : EngineState n) : EngineState n :=
  match key with
  | Key.space => { g with paused := !g.paused }
  | Key.keyR => { g with restart_requested := true, paused := false }
  | Key.other => g

/-- Reinitialisation performed at the top of the outer `while True` loop
(lines 166-169) when a restart happens: clear the flag, rebuild the
simulation state from the unchanged `manual_points_list`, zero the
isolation counters, and start the `for` loop over from step 0.  The
`points` field is untouched. -/
def restartRun {n : ℕ} (g : EngineState n) : EngineState n :=
  { g with restart_requested := false, sim := initState n, stepIdx := 0 }

/-- One scheduling decision of the main loop (lines 166-234): a pending
restart is honoured first (it breaks out of the `for` loop, and out of the
`while paused` wait, before anything else runs); otherwise a paused engine
merely waits; otherwise, while steps remain, the step body runs and the
step index advances. -/
def mainLoopIter {n : ℕ} (cfg : Config) (totalSteps : ℕ)
    (g : EngineState n) : EngineState n :=
  if g.restart_requested then restartRun g
  else if g.paused then g
  else if g.stepIdx < totalSteps then
    { g with sim := simStep cfg g.points g.sim, stepIdx := g.stepIdx + 1 }
  else g

/-- Handler `on_click` (lines 33-36) restricted to its state effect: append the
clicked position to `manual_points_list` when the click is inside the axes
and fewer than `manual_points` points have been collected; otherwise leave
the list alone. -/
def on_click (maxPts : ℕ) (inAxes : Bool) (pos : ℚ × ℚ)
    (lst : List (ℚ × ℚ)) : List (ℚ × ℚ) :=
  if inAxes ∧ lst.length < maxPts then lst ++ [pos] else lst

/-- The placement phase (lines 124-126) processing a sequence of click
events in the order received, each through `on_click`. -/
def processClicks (maxPts : ℕ) (clicks : List (Bool × (ℚ × ℚ)))
    (lst : List (ℚ × ℚ)) : List (ℚ × ℚ) :=
  clicks.foldl (fun l c => on_click maxPts c.1 c.2 l) lst

/-- Point `i` appears in some connected pair during the step taken from
state `s` after `m` earlier steps (the connectivity test runs on the
post-growth radii of that step). -/
abbrev touchedDuringStep {n : ℕ} (cfg : Config) (pts : Fin n → ℚ × ℚ)
    (s : SimState n) (m : ℕ) (i : Fin n) : Prop :=
  ∃ j, pairConnected pts ((grow cfg ((simStep cfg pts)^[m] s)).radii) i j
    = true

/-- Point `i` appears in some connected pair during step `k + 1` of a run
started from the fresh state. -/
abbrev connectedInStep {n : ℕ} (cfg : Config) (pts : Fin n → ℚ × ℚ)
    (k : ℕ) (i : Fin n) : Prop :=
  touchedDuringStep cfg pts (initState n) k i

/-- Spec-side reading of the counter (for the refinement comparison of the
stored counter against the spec's wording): the number of
consecutive immediately preceding steps (out of the first `k`) in which
point `i` appeared in no connected pair.  To be compared with the engine's
stored `isolation_counts`. -/
def untouchedStreak {n : ℕ} (cfg : Config) (pts : Fin n → ℚ × ℚ) :
    ℕ → Fin n → ℕ
  | 0, _ => 0
  | k + 1, i =>
    if connectedInStep cfg pts k i then 0
    else untouchedStreak cfg pts k i + 1

/-- Concrete two-point placement used in concrete instantiations:
centres at distance 1. -/
def wpts2 : Fin 2 → ℚ × ℚ := ![(0, 0), (1, 0)]

/-- Concrete radii for the two-point placement. -/
def wr2 : Fin 2 → ℚ := ![1, 1]

/-- Degenerate single-point placement: one point at the origin. -/
def wpts1 : Fin 1 → ℚ × ℚ := fun _ => (0, 0)

/-- Concrete state with both points frozen: radii 5, counters 1. -/
def wfrozen : SimState 2 := ⟨fun _ => 5, fun _ => 1⟩

/-- Unit growth rate with isolation limit 1. -/
def wcfg1 : Config := ⟨1, 1⟩

/-- Unit growth rate with isolation limit 2. -/
def wcfg2 : Config := ⟨1, 2⟩

/-! Basic lemmas about the embedding. -/

theorem sqDist_comm (p1 p2 : ℚ × ℚ) : sqDist p1 p2 = sqDist p2 p1 := by
  unfold sqDist; ring

theorem sqDist_nonneg (p1 p2 : ℚ × ℚ) : 0 ≤ sqDist p1 p2 := by
  unfold sqDist
  exact add_nonneg (mul_self_nonneg _) (mul_self_nonneg _)

theorem circles_overlap_symm (p1 p2 : ℚ × ℚ) (r1 r2 : ℚ) :
    circles_overlap p1 p2 r1 r2 = circles_overlap p2 p1 r2 r1 := by
  unfold circles_overlap
  rw [sqDist_comm, add_comm r1 r2]

theorem circles_overlap_iff_dist (p1 p2 : ℚ × ℚ) (r1 r2 : ℚ) :
    circles_overlap p1 p2 r1 r2 = true ↔
      Real.sqrt ((sqDist p1 p2 : ℚ) : ℝ) ≤ (r1 : ℝ) + (r2 : ℝ) := by
  unfold circles_overlap
  rw [decide_eq_true_eq, Real.sqrt_le_iff, sq]
  norm_cast

theorem pairConnected_symm {n : ℕ} (pts : Fin n → ℚ × ℚ) (r : Fin n → ℚ)
    (i j : Fin n) : pairConnected pts r i j = pairConnected pts r j i := by
  unfold pairConnected
  exact Bool.or_comm _ _

theorem pairConnected_self {n : ℕ} (pts : Fin n → ℚ × ℚ) (r : Fin n → ℚ)
    (i : Fin n) : pairConnected pts r i i = false := by
  simp [pairConnected]

theorem pairConnected_eq_overlap {n : ℕ} (pts : Fin n → ℚ × ℚ)
    (r : Fin n → ℚ) {i j : Fin n} (hij : i ≠ j) :
    pairConnected pts r i j = circles_overlap (pts i) (pts j) (r i) (r j)
    := by
  unfold pairConnected
  rcases lt_or_gt_of_ne hij with h | h
  · have h' : ¬ j < i := not_lt_of_gt h
    simp [h, h']
  · have h' : ¬ i < j := not_lt_of_gt h
    simp [h, h', circles_overlap_symm (pts j) (pts i) (r j) (r i)]

theorem touched_iff {n : ℕ} (pts : Fin n → ℚ × ℚ) (r : Fin n → ℚ)
    (k : Fin n) :
    touched pts r k = true ↔ ∃ j, pairConnected pts r k j = true := by
  unfold touched bookConnected pairConnected
  rw [decide_eq_true_eq]
  constructor
  · rintro ⟨i, j, hb, hk⟩
    simp only [Bool.and_eq_true, decide_eq_true_eq] at hb
    rcases hk with rfl | rfl
    · refine ⟨j, ?_⟩
      simp only [Bool.or_eq_true, Bool.and_eq_true, decide_eq_true_eq]
      exact Or.inl ⟨hb.1, hb.2⟩
    · refine ⟨i, ?_⟩
      simp only [Bool.or_eq_true, Bool.and_eq_true, decide_eq_true_eq]
      exact Or.inr ⟨hb.1, hb.2⟩
  · rintro ⟨j, hj⟩
    simp only [Bool.or_eq_true, Bool.and_eq_true, decide_eq_true_eq] at hj
    rcases hj with ⟨hkj, hov⟩ | ⟨hjk, hov⟩
    · refine ⟨k, j, ?_, Or.inl rfl⟩
      simp only [Bool.and_eq_true, decide_eq_true_eq]
      exact ⟨hkj, hov⟩
    · refine ⟨j, k, ?_, Or.inr rfl⟩
      simp only [Bool.and_eq_true, decide_eq_true_eq]
      exact ⟨hjk, hov⟩

theorem update_connections_radii {n : ℕ} (pts : Fin n → ℚ × ℚ)
    (s : SimState n) : (update_connections pts s).radii = s.radii := rfl

theorem grow_radii {n : ℕ} (cfg : Config) (s : SimState n) (i : Fin n) :
    (grow cfg s).radii i =
      if s.isolation_counts i < cfg.isolation_limit then
        s.radii i + cfg.expansion_rate
      else s.radii i := rfl

theorem simStep_radii {n : ℕ} (cfg : Config) (pts : Fin n → ℚ × ℚ)
    (s : SimState n) (i : Fin n) :
    (simStep cfg pts s).radii i =
      if s.isolation_counts i < cfg.isolation_limit then
        s.radii i + cfg.expansion_rate
      else s.radii i := rfl

theorem simStep_counts {n : ℕ} (cfg : Config) (pts : Fin n → ℚ × ℚ)
    (s : SimState n) (i : Fin n) :
    (simStep cfg pts s).isolation_counts i =
      if touched pts ((grow cfg s).radii) i then 0
      else s.isolation_counts i + 1 := rfl

theorem pairConnected_fin_one (pts : Fin 1 → ℚ × ℚ) (r : Fin 1 → ℚ)
    (i j : Fin 1) : pairConnected pts r i j = false := by
  have hij : i = j := Subsingleton.elim i j
  rw [hij, pairConnected_self]

theorem touched_eq_false_of_not {n : ℕ} {pts : Fin n → ℚ × ℚ}
    {r : Fin n → ℚ} {k : Fin n}
    (h : ¬ ∃ j, pairConnected pts r k j = true) : touched pts r k = false := by
  cases hb : touched pts r k with
  | false => rfl
  | true => exact absurd ((touched_iff pts r k).mp hb) h

/-- Radius after `k` steps of a point that stays strictly below the
isolation limit at the start of each of those steps. -/
theorem radii_never_isolated {n : ℕ} (cfg : Config) (pts : Fin n → ℚ × ℚ)
    (k : ℕ) (i : Fin n)
    (h : ∀ m, m < k →
      ((simStep cfg pts)^[m] (initState n)).isolation_counts i
        < cfg.isolation_limit) :
    ((simStep cfg pts)^[k] (initState n)).radii i
      = (k : ℚ) * cfg.expansion_rate := by
  induction k with
  | zero => simp [initState]
  | succ k ih =>
    have hk := h k (Nat.lt_succ_self k)
    have ihr := ih (fun m hm => h m (hm.trans (Nat.lt_succ_self k)))
    rw [Function.iterate_succ_apply', simStep_radii, if_pos hk, ihr]
    push_cast
    ring

/-- Behaviour of a point that is in no connected pair for `k` consecutive
steps taken from `s`, while its counter has room to stay below the limit:
its radius grows linearly and its counter climbs by one per step. -/
theorem untouched_run {n : ℕ} (cfg : Config) (pts : Fin n → ℚ × ℚ)
    (s : SimState n) (i : Fin n) (k : ℕ)
    (hk : s.isolation_counts i + k ≤ cfg.isolation_limit)
    (hu : ∀ m, m < k → ¬ touchedDuringStep cfg pts s m i) :
    ((simStep cfg pts)^[k] s).radii i
        = s.radii i + (k : ℚ) * cfg.expansion_rate ∧
      ((simStep cfg pts)^[k] s).isolation_counts i
        = s.isolation_counts i + k := by
  induction k with
  | zero => simp
  | succ k ih =>
    obtain ⟨ihr, ihc⟩ :=
      ih (by omega) (fun m hm => hu m (hm.trans (Nat.lt_succ_self k)))
    have hlt : ((simStep cfg pts)^[k] s).isolation_counts i
        < cfg.isolation_limit := by rw [ihc]; omega
    have ht : touched pts ((grow cfg ((simStep cfg pts)^[k] s)).radii) i
        = false :=
      touched_eq_false_of_not (hu k (Nat.lt_succ_self k))
    constructor
    · rw [Function.iterate_succ_apply', simStep_radii, if_pos hlt, ihr]
      push_cast
      ring
    · rw [Function.iterate_succ_apply', simStep_counts, ht]
      simp only [Bool.false_eq_true, if_false]
      rw [ihc]
      omega

/-- The stored isolation counter coincides with the spec's untouched-streak
reading at every step of a run. -/
theorem counts_eq_streak {n : ℕ} (cfg : Config) (pts : Fin n → ℚ × ℚ)
    (k : ℕ) (i : Fin n) :
    ((simStep cfg pts)^[k] (initState n)).isolation_counts i
      = untouchedStreak cfg pts k i := by
  induction k with
  | zero => rfl
  | succ k ih =>
    rw [Function.iterate_succ_apply', simStep_counts]
    unfold untouchedStreak
    by_cases hc : connectedInStep cfg pts k i
    · have ht := (touched_iff pts _ i).mpr hc
      rw [ht, if_pos hc]
      simp
    · have ht := touched_eq_false_of_not (k := i) hc
      rw [ht, if_neg hc, ih]
      simp

theorem streak_of_never {n : ℕ} (cfg : Config) (pts : Fin n → ℚ × ℚ)
    (k : ℕ) (i : Fin n)
    (h : ∀ m, m < k → ¬ connectedInStep cfg pts m i) :
    untouchedStreak cfg pts k i = k := by
  induction k with
  | zero => rfl
  | succ k ih =>
    unfold untouchedStreak
    rw [if_neg (h k (Nat.lt_succ_self k)),
      ih (fun m hm => h m (hm.trans (Nat.lt_succ_self k)))]

theorem fullStep_connections_all_true {n : ℕ} (cfg : Config)
    (pts : Fin n → ℚ × ℚ) (fs : FullState n)
    (h : ∀ i j, fs.connections i j = true) :
    ∀ i j, (fullStep cfg pts fs).connections i j = true := by
  intro i j
  have he : (fullStep cfg pts fs).connections i j =
      if bookConnected pts ((growFull cfg fs).radii) i j then true
      else fs.connections i j := rfl
  rw [he]
  split
  · rfl
  · exact h i j

theorem iterate_full_connections {n : ℕ} (cfg : Config)
    (pts : Fin n → ℚ × ℚ) :
    ∀ (k : ℕ) (i j : Fin n),
      (((fullStep cfg pts)^[k]) (initFull n)).connections i j = true := by
  intro k
  induction k with
  | zero => intro i j; rfl
  | succ k ih =>
    intro i j
    rw [Function.iterate_succ_apply']
    exact fullStep_connections_all_true cfg pts _ ih i j

theorem fullStep_proj {n : ℕ} (cfg : Config) (pts : Fin n → ℚ × ℚ)
    (fs : FullState n) (s : SimState n)
    (hr : fs.radii = s.radii) (hc : fs.isolation_counts = s.isolation_counts) :
    (fullStep cfg pts fs).radii = (simStep cfg pts s).radii ∧
      (fullStep cfg pts fs).isolation_counts
        = (simStep cfg pts s).isolation_counts := by
  have hg : (growFull cfg fs).radii = (grow cfg s).radii := by
    funext j
    show (if fs.isolation_counts j < cfg.isolation_limit then
        fs.radii j + cfg.expansion_rate else fs.radii j) = _
    rw [hr, hc]
    rfl
  constructor
  · exact hg
  · funext i
    show (if touched pts ((growFull cfg fs).radii) i then 0
        else fs.isolation_counts i + 1) = _
    rw [hg, hc]
    rfl

theorem iterate_full_proj {n : ℕ} (cfg : Config) (pts : Fin n → ℚ × ℚ) :
    ∀ k : ℕ,
      (((fullStep cfg pts)^[k]) (initFull n)).radii
          = (((simStep cfg pts)^[k]) (initState n)).radii ∧
        (((fullStep cfg pts)^[k]) (initFull n)).isolation_counts
          = (((simStep cfg pts)^[k]) (initState n)).isolation_counts := by
  intro k
  induction k with
  | zero => exact ⟨rfl, rfl⟩
  | succ k ih =>
    rw [Function.iterate_succ_apply', Function.iterate_succ_apply']
    exact fullStep_proj cfg pts _ _ ih.1 ih.2

theorem processClicks_eq (maxPts : ℕ) :
    ∀ (clicks : List (Bool × (ℚ × ℚ))) (lst : List (ℚ × ℚ)),
      processClicks maxPts clicks lst =
        lst ++ (((clicks.filter fun c => c.1).map fun c => c.2).take
          (maxPts - lst.length)) := by
  intro clicks
  induction clicks with
  | nil => intro lst; simp [processClicks]
  | cons c cs ih =>
    intro lst
    obtain ⟨b, pos⟩ := c
    show processClicks maxPts cs (on_click maxPts b pos lst) = _
    cases b with
    | false =>
      have e0 : on_click maxPts false pos lst = lst := by simp [on_click]
      rw [e0, ih lst]
      simp [List.filter_cons]
    | true =>
      by_cases hlen : lst.length < maxPts
      · have e1 : on_click maxPts true pos lst = lst ++ [pos] := by
          simp [on_click, hlen]
        rw [e1, ih (lst ++ [pos])]
        have hsub : maxPts - (lst.length + 1) + 1 = maxPts - lst.length :=
          by omega
        simp only [List.length_append, List.length_singleton]
        rw [← hsub]
        simp [List.filter_cons, List.take_succ_cons]
      · have e2 : on_click maxPts true pos lst = lst := by
          simp only [on_click, ite_eq_right_iff]
          rintro ⟨-, hlt⟩
          exact absurd hlt hlen
        have hz : maxPts - lst.length = 0 := by omega
        rw [e2, ih lst, hz]
        simp [List.filter_cons, hz]

/-! Claim theorems. -/

/-- C1: for every pair of distinct indices, the connectivity relation of a
step holds iff the Euclidean distance between the centres is at most the
sum of the radii (tangency inclusive); the relation is symmetric; and no
self pair is ever visited by the loops or connected. -/
theorem claim_connectivity {n : ℕ} (pts : Fin n → ℚ × ℚ) (r : Fin n → ℚ)
    (i j : Fin n) :
    (i ≠ j →
      (pairConnected pts r i j = true ↔
        Real.sqrt ((sqDist (pts i) (pts j) : ℚ) : ℝ)
          ≤ (r i : ℝ) + (r j : ℝ))) ∧
    pairConnected pts r i j = pairConnected pts r j i ∧
    bookConnected pts r i i = false ∧
    pairConnected pts r i i = false := by
  refine ⟨fun hij => ?_, pairConnected_symm pts r i j, ?_,
    pairConnected_self pts r i⟩
  · rw [pairConnected_eq_overlap pts r hij]
    exact circles_overlap_iff_dist _ _ _ _
  · simp [bookConnected]

/-- Witness for C1 at the two-point placement, indices 0 and 1. -/
theorem claim_connectivity_witness :
    ((0 : Fin 2) ≠ 1) ∧
    (pairConnected wpts2 wr2 0 1 = true ↔
      Real.sqrt ((sqDist (wpts2 0) (wpts2 1) : ℚ) : ℝ)
        ≤ (wr2 0 : ℝ) + (wr2 1 : ℝ)) := by
  have h : (0 : Fin 2) ≠ 1 := by decide
  exact ⟨h, (claim_connectivity wpts2 wr2 0 1).1 h⟩

/-- C2: each step adds the expansion rate to exactly the radii of points
whose counter is below the isolation limit at step start and leaves every
other radius unchanged; consequently a point whose counter stays below the
limit throughout the first k steps has radius k times the rate after
step k. -/
theorem claim_growth {n : ℕ} (cfg : Config) (pts : Fin n → ℚ × ℚ) (k : ℕ)
    (i : Fin n)
    (h : ∀ m, m < k →
      ((simStep cfg pts)^[m] (initState n)).isolation_counts i
        < cfg.isolation_limit) :
    ((simStep cfg pts)^[k] (initState n)).radii i
        = (k : ℚ) * cfg.expansion_rate ∧
    (∀ (s : SimState n) (j : Fin n),
      (simStep cfg pts s).radii j =
        if s.isolation_counts j < cfg.isolation_limit then
          s.radii j + cfg.expansion_rate
        else s.radii j) :=
  ⟨radii_never_isolated cfg pts k i h, fun _ _ => rfl⟩

/-- Witness for C2: one step of a lone point from the fresh state. -/
theorem claim_growth_witness :
    (∀ m, m < 1 →
      ((simStep defaultConfig wpts1)^[m] (initState 1)).isolation_counts 0
        < defaultConfig.isolation_limit) ∧
    ((simStep defaultConfig wpts1)^[1] (initState 1)).radii 0
      = ((1 : ℕ) : ℚ) * defaultConfig.expansion_rate := by
  have h : ∀ m, m < 1 →
      ((simStep defaultConfig wpts1)^[m] (initState 1)).isolation_counts 0
        < defaultConfig.isolation_limit := by
    intro m hm
    have hm0 : m = 0 := Nat.lt_one_iff.mp hm
    subst hm0
    show (initState 1).isolation_counts 0 < defaultConfig.isolation_limit
    norm_num [initState, defaultConfig, isolation_limit]
  exact ⟨h, (claim_growth defaultConfig wpts1 1 0 h).1⟩

/-- C3: after the connectivity relation of a step is computed, a point in
at least one connected pair gets its counter set to 0, a point in none gets
it incremented by exactly 1, and nothing else changes: the counter update
is total over indices and the bookkeeping pass never writes radii. -/
theorem claim_counter_update {n : ℕ} (cfg : Config) (pts : Fin n → ℚ × ℚ)
    (s : SimState n) (i : Fin n) :
    ((simStep cfg pts s).isolation_counts i =
      if ∃ j, pairConnected pts ((grow cfg s).radii) i j = true then 0
      else s.isolation_counts i + 1) ∧
    (∀ t : SimState n, (update_connections pts t).radii = t.radii) := by
  constructor
  · rw [simStep_counts]
    by_cases hc : ∃ j, pairConnected pts ((grow cfg s).radii) i j = true
    · rw [(touched_iff _ _ _).mpr hc, if_pos hc]
      simp
    · rw [touched_eq_false_of_not hc, if_neg hc]
      simp
  · exact fun _ => rfl

/-- C4: a point whose counter has reached the limit at step start gets no
growth that step, while its frozen radius is the one used by the step's
connectivity test; if some pair containing it is connected that step, its
counter resets to 0 and the next step grows it from the frozen radius. -/
theorem claim_frozen {n : ℕ} (cfg : Config) (pts : Fin n → ℚ × ℚ)
    (s : SimState n) (i : Fin n)
    (hfroz : cfg.isolation_limit ≤ s.isolation_counts i)
    (hpos : 0 < cfg.isolation_limit) :
    (grow cfg s).radii i = s.radii i ∧
    (simStep cfg pts s).radii i = s.radii i ∧
    ((∃ j, pairConnected pts ((grow cfg s).radii) i j = true) →
      (simStep cfg pts s).isolation_counts i = 0 ∧
      (simStep cfg pts (simStep cfg pts s)).radii i
        = s.radii i + cfg.expansion_rate) := by
  have hnl : ¬ s.isolation_counts i < cfg.isolation_limit :=
    Nat.not_lt.mpr hfroz
  have hgr : (grow cfg s).radii i = s.radii i := by
    rw [grow_radii, if_neg hnl]
  have hsr : (simStep cfg pts s).radii i = s.radii i := by
    rw [simStep_radii, if_neg hnl]
  refine ⟨hgr, hsr, fun hc => ?_⟩
  have hcz : (simStep cfg pts s).isolation_counts i = 0 := by
    rw [simStep_counts, (touched_iff _ _ _).mpr hc]
    simp
  refine ⟨hcz, ?_⟩
  rw [simStep_radii, hcz, if_pos hpos, hsr]

/-- Witness for C4: a frozen point (counter 1, limit 1) of the two-point
placement. -/
theorem claim_frozen_witness :
    (wcfg1.isolation_limit ≤ wfrozen.isolation_counts 0) ∧
    (0 < wcfg1.isolation_limit) ∧
    ((grow wcfg1 wfrozen).radii 0 = wfrozen.radii 0 ∧
     (simStep wcfg1 wpts2 wfrozen).radii 0 = wfrozen.radii 0 ∧
     ((∃ j, pairConnected wpts2 ((grow wcfg1 wfrozen).radii) 0 j = true) →
       (simStep wcfg1 wpts2 wfrozen).isolation_counts 0 = 0 ∧
       (simStep wcfg1 wpts2 (simStep wcfg1 wpts2 wfrozen)).radii 0
         = wfrozen.radii 0 + wcfg1.expansion_rate)) := by
  have h1 : wcfg1.isolation_limit ≤ wfrozen.isolation_counts 0 :=
    Nat.le_refl 1
  have h2 : 0 < wcfg1.isolation_limit := Nat.zero_lt_one
  exact ⟨h1, h2, claim_frozen wcfg1 wpts2 wfrozen 0 h1 h2⟩

/-- C5: a restart signal, whenever received — paused or not — makes the
engine abandon the current step: radii and counters reset to zero, the step
index to 0, the pause state clears, the restart flag clears, and the placed
point positions are unchanged. -/
theorem claim_restart {n : ℕ} (cfg : Config) (totalSteps : ℕ)
    (g : EngineState n) :
    (mainLoopIter cfg totalSteps (on_key_press Key.keyR g)).sim.radii
        = (fun _ => 0) ∧
    (mainLoopIter cfg totalSteps
        (on_key_press Key.keyR g)).sim.isolation_counts = (fun _ => 0) ∧
    (mainLoopIter cfg totalSteps (on_key_press Key.keyR g)).stepIdx = 0 ∧
    (mainLoopIter cfg totalSteps (on_key_press Key.keyR g)).paused
        = false ∧
    (mainLoopIter cfg totalSteps
        (on_key_press Key.keyR g)).restart_requested = false ∧
    (mainLoopIter cfg totalSteps (on_key_press Key.keyR g)).points
        = g.points := by
  have he : mainLoopIter cfg totalSteps (on_key_press Key.keyR g)
      = restartRun (on_key_press Key.keyR g) := by
    unfold mainLoopIter
    rw [if_pos
      (show (on_key_press Key.keyR g).restart_requested = true from rfl)]
  rw [he]
  exact ⟨rfl, rfl, rfl, rfl, rfl, rfl⟩

/-- C6: within a step, the pair relation computed by the drawing pass and
the one computed by the bookkeeping pass of `update_connections` coincide —
both run on the same positions and on the same post-growth radii, and they
agree on every radius vector. -/
theorem claim_two_passes {n : ℕ} (cfg : Config) (pts : Fin n → ℚ × ℚ)
    (s : SimState n) (i j : Fin n) :
    drawConnected pts ((grow cfg s).radii) i j
        = bookConnected pts ((grow cfg s).radii) i j ∧
    (∀ r : Fin n → ℚ, drawConnected pts r i j = bookConnected pts r i j) :=
  ⟨rfl, fun _ => rfl⟩

/-- C7: the placement preview radius equals `isolation_limit *
expansion_rate` for every previewed position; the per-point prediction of
an active point equals `current_radius + (isolation_limit − current_count)
* expansion_rate`; computing the predictions leaves the state untouched;
and for an active point that stays in no connected pair, the prediction is
exactly the radius it is frozen at once its counter hits the limit. -/
theorem claim_predictions {n : ℕ} (cfg : Config) (pts : Fin n → ℚ × ℚ)
    (s : SimState n) (i : Fin n)
    (hactive : s.isolation_counts i < cfg.isolation_limit)
    (hu : ∀ m, m < cfg.isolation_limit - s.isolation_counts i →
      ¬ touchedDuringStep cfg pts s m i) :
    (∀ pos : ℚ × ℚ, placementPredicted cfg pos
        = (cfg.isolation_limit : ℚ) * cfg.expansion_rate) ∧
    predictedFinalRadius cfg s i
        = s.radii i +
            ((cfg.isolation_limit : ℚ) - (s.isolation_counts i : ℚ))
              * cfg.expansion_rate ∧
    (renderPredictions cfg s).2 = s ∧
    ((simStep cfg pts)^[cfg.isolation_limit - s.isolation_counts i] s).radii
        i = predictedFinalRadius cfg s i := by
  refine ⟨fun _ => rfl, rfl, rfl, ?_⟩
  have hle := Nat.le_of_lt hactive
  have hk : s.isolation_counts i
      + (cfg.isolation_limit - s.isolation_counts i)
      ≤ cfg.isolation_limit := by omega
  have h := (untouched_run cfg pts s i _ hk hu).1
  rw [h]
  unfold predictedFinalRadius
  rw [Nat.cast_sub hle]

/-- Witness for C7: a lone point (never in any pair) from the fresh state,
with unit rate and limit 2. -/
theorem claim_predictions_witness :
    ((initState 1).isolation_counts 0 < wcfg2.isolation_limit) ∧
    ((simStep wcfg2 wpts1)^[wcfg2.isolation_limit
        - (initState 1).isolation_counts 0] (initState 1)).radii 0
      = predictedFinalRadius wcfg2 (initState 1) 0 := by
  have ha : (initState 1).isolation_counts 0 < wcfg2.isolation_limit :=
    Nat.zero_lt_two
  have hu : ∀ m, m < wcfg2.isolation_limit
      - (initState 1).isolation_counts 0 →
      ¬ touchedDuringStep wcfg2 wpts1 (initState 1) m 0 := by
    intro m hm
    rintro ⟨j, hj⟩
    rw [pairConnected_fin_one] at hj
    exact Bool.false_ne_true hj
  exact ⟨ha, (claim_predictions wcfg2 wpts1 (initState 1) 0 ha hu).2.2.2⟩

/-- C8: a click arriving once the list already holds the full point count
leaves the list unchanged; the collected list is always the first
`maxPts` in-axes click positions in arrival order, never longer than
`maxPts`; and when the wait loop's guard releases (at least `maxPts`
collected) the list holds exactly `maxPts` points. -/
theorem claim_placement (maxPts : ℕ) (inAxes : Bool) (pos : ℚ × ℚ)
    (lst : List (ℚ × ℚ)) (hfull : maxPts ≤ lst.length) :
    on_click maxPts inAxes pos lst = lst ∧
    (∀ clicks : List (Bool × (ℚ × ℚ)),
      processClicks maxPts clicks []
          = ((clicks.filter fun c => c.1).map fun c => c.2).take maxPts ∧
      (processClicks maxPts clicks []).length ≤ maxPts ∧
      (maxPts ≤ (processClicks maxPts clicks []).length →
        (processClicks maxPts clicks []).length = maxPts)) := by
  constructor
  · unfold on_click
    rw [if_neg]
    rintro ⟨-, hlt⟩
    omega
  · intro clicks
    have he : processClicks maxPts clicks []
        = ((clicks.filter fun c => c.1).map fun c => c.2).take maxPts := by
      rw [processClicks_eq]
      simp
    refine ⟨he, ?_, ?_⟩
    · rw [he, List.length_take]
      omega
    · intro hge
      rw [he, List.length_take] at hge ⊢
      omega

/-- Witness for C8: a third click against a full two-point list. -/
theorem claim_placement_witness :
    ((2 : ℕ) ≤ ([((0 : ℚ), (0 : ℚ)), (1, 1)] : List (ℚ × ℚ)).length) ∧
    on_click 2 true (5, 5) [((0 : ℚ), (0 : ℚ)), (1, 1)]
      = [((0 : ℚ), (0 : ℚ)), (1, 1)] := by
  have h : (2 : ℕ) ≤ ([((0 : ℚ), (0 : ℚ)), (1, 1)] : List (ℚ × ℚ)).length :=
    by simp
  exact ⟨h, (claim_placement 2 true (5, 5) _ h).1⟩

/-- C9: the step relation is a function of current positions and radii
only: the persistently stored connections matrix starts all `True`, stays
all `True` for the whole run, and replacing it changes neither the radii,
nor the counters, nor the touched flags of a step; the connection-matrix
state projects onto the matrix-free engine at every step count. -/
theorem claim_connections_matrix {n : ℕ} (cfg : Config)
    (pts : Fin n → ℚ × ℚ) :
    (∀ (k : ℕ) (i j : Fin n),
      (((fullStep cfg pts)^[k]) (initFull n)).connections i j = true) ∧
    (∀ (fs : FullState n) (c : Fin n → Fin n → Bool),
      (fullStep cfg pts { fs with connections := c }).radii
          = (fullStep cfg pts fs).radii ∧
      (fullStep cfg pts { fs with connections := c }).isolation_counts
          = (fullStep cfg pts fs).isolation_counts ∧
      (∀ i, touched pts ((growFull cfg { fs with connections := c }).radii) i
          = touched pts ((growFull cfg fs).radii) i)) ∧
    (∀ k : ℕ,
      (((fullStep cfg pts)^[k]) (initFull n)).radii
          = (((simStep cfg pts)^[k]) (initState n)).radii ∧
      (((fullStep cfg pts)^[k]) (initFull n)).isolation_counts
          = (((simStep cfg pts)^[k]) (initState n)).isolation_counts) :=
  ⟨iterate_full_connections cfg pts,
   fun _ _ => ⟨rfl, rfl, fun _ => rfl⟩,
   iterate_full_proj cfg pts⟩

/-- C10: after every step the counter equals the number of consecutive
immediately preceding steps in which the point was in no connected pair;
in particular a point that is never in a pair has counter k after k steps,
unboundedly past the isolation limit. -/
theorem claim_streak {n : ℕ} (cfg : Config) (pts : Fin n → ℚ × ℚ) :
    (∀ (k : ℕ) (i : Fin n),
      ((simStep cfg pts)^[k] (initState n)).isolation_counts i
        = untouchedStreak cfg pts k i) ∧
    (∀ (k : ℕ) (i : Fin n),
      (∀ m, m < k → ¬ connectedInStep cfg pts m i) →
      ((simStep cfg pts)^[k] (initState n)).isolation_counts i = k) := by
  refine ⟨counts_eq_streak cfg pts, fun k i h => ?_⟩
  rw [counts_eq_streak cfg pts k i, streak_of_never cfg pts k i h]

/-- Witness for C10: a lone point after 6 steps of the source
configuration has counter 6, beyond the isolation limit 4. -/
theorem claim_streak_witness :
    ((∀ m, m < 6 → ¬ connectedInStep defaultConfig wpts1 m 0) ∧
     ((simStep defaultConfig wpts1)^[6] (initState 1)).isolation_counts 0
       = 6) ∧
    defaultConfig.isolation_limit < 6 := by
  have h : ∀ m, m < 6 → ¬ connectedInStep defaultConfig wpts1 m 0 := by
    intro m hm
    rintro ⟨j, hj⟩
    rw [pairConnected_fin_one] at hj
    exact Bool.false_ne_true hj
  refine ⟨⟨h, (claim_streak defaultConfig wpts1).2 6 0 h⟩, ?_⟩
  norm_num [defaultConfig, isolation_limit]

end Holes
